import Mathlib

/-!
Verification development for the editing core of kilo-rs: a shallow
embedding of src/buffer.rs, src/screen.rs and src/key.rs. Strings are
modelled as lists of characters, mutable state as explicit state passing,
and code that can panic as Option-valued functions (none = panic).
-/

set_option maxRecDepth 10000

/-- Tab stop constant from main.rs (`const TAB_STOP: usize = 8`). -/
def TAB_STOP : Nat := 8

/-- `is_separator` from buffer.rs. -/
def is_separator (c : Char) : Bool :=
  c = ' ' || c = '\t' || c = '\r' || c = '\n' || c = '\x00' || c = ',' ||
  c = '.' || c = '(' || c = ')' || c = '+' || c = '-' || c = '/' ||
  c = '*' || c = '=' || c = '%' || c = '<' || c = '>' || c = '[' || c = ']'

/-- Boolean check that `q` starts the list `s` (Rust `s.starts_with(q)` with
the arguments in `starts_with` order: the pattern first). -/
def leadsWith : List Char → List Char → Bool
  | [], _ => true
  | _ :: _, [] => false
  | a :: as_, b :: bs => a = b && leadsWith as_ bs

/-- The inner `while i % TAB_STOP != 0 { render.push(' '); i += 1 }` loop of
`EditorLine::convert_render`, written with structural fuel: the condition
fails after at most `TAB_STOP - 1` increments (some residue hits 0), so
`TAB_STOP` fuel always covers the whole while loop. -/
def padGo : Nat → Nat → List Char × Nat
  | 0, i => ([], i)
  | fuel + 1, i =>
    if i % TAB_STOP = 0 then ([], i)
    else
      let r := padGo fuel (i + 1)
      (' ' :: r.1, r.2)

/-- Spaces pushed, and final counter, of the tab-padding while loop
starting at counter `i`. -/
def padWhile (i : Nat) : List Char × Nat := padGo TAB_STOP i

/-- The `for c in line.chars()` loop of `EditorLine::convert_render`,
including the extra `i += 1` that runs after the `match` for every
character (so after a tab the counter is one ahead of the render length). -/
def crLoop : List Char → Nat → List Char
  | [], _ => []
  | c :: cs, i =>
    if c = '\t' then
      let r := padWhile (i + 1)
      ' ' :: r.1 ++ crLoop cs (r.2 + 1)
    else
      c :: crLoop cs (i + 1)

/-- `EditorLine::convert_render` from buffer.rs. -/
def convert_render (line : List Char) : List Char := crLoop line 0

/-- `Highlight` from buffer.rs. -/
inductive Highlight where
  | Normal
  | Number
  | Match
  | String
  | Comment
  | MultilineComment
  | Keyword1
  | Keyword2
deriving DecidableEq, Repr

/-- `HighlightType` from buffer.rs. -/
inductive HighlightType where
  | Number
  | String
  | Comment
  | MultilineComment
  | Keyword1
  | Keyword2
deriving DecidableEq, Repr

/-- `FileType` from buffer.rs (only the `C` variant exists). -/
inductive FileType where
  | C
deriving DecidableEq, Repr

def FileType.keyword1 : FileType → List (List Char)
  | .C =>
    [("switch").toList, ("if").toList, ("while").toList, ("for").toList,
     ("break").toList, ("continue").toList, ("return").toList, ("else").toList,
     ("struct").toList, ("union").toList, ("typedef").toList, ("static").toList,
     ("enum").toList, ("class").toList, ("case").toList]

def FileType.keyword2 : FileType → List (List Char)
  | .C =>
    [("int").toList, ("long").toList, ("double").toList, ("float").toList,
     ("char").toList, ("unsigned").toList, ("signed").toList, ("void").toList]

def FileType.is_highlight : FileType → HighlightType → Bool
  | .C, _ => true

def FileType.singleline_comment_start : FileType → Option (List Char)
  | .C => some (("//").toList)

def FileType.multiline_comment_start : FileType → Option (List Char)
  | .C => some (("/*").toList)

def FileType.multiline_comment_end : FileType → Option (List Char)
  | .C => some (("*/").toList)

/-- `EditorLine` from buffer.rs. -/
structure EditorLine where
  raw : List Char
  render : List Char
  highlight : List Highlight
  file_type : Option FileType
  open_comment : Bool
deriving DecidableEq, Repr

/-- `Vec::resize` as used on the highlight vector. -/
def resize (l : List Highlight) (n : Nat) (d : Highlight) : List Highlight :=
  if n ≤ l.length then l.take n else l ++ List.replicate (n - l.length) d

/-- `for j in b..b+n { hl[j] = v }` (count-based form). -/
def setFrom : List Highlight → Nat → Nat → Highlight → List Highlight
  | hl, _, 0, _ => hl
  | hl, b, n + 1, v => setFrom (hl.set b v) (b + 1) n v

/-- `for j in b..e { hl[j] = v }`. -/
def setRange (hl : List Highlight) (b e : Nat) (v : Highlight) : List Highlight :=
  setFrom hl b (e - b) v

/-- The `keyword_func` closure of `EditorLine::clear_highlight`. It compares
the slice of length `kw.length` at `i` with each keyword, then checks the
character at index `i + kw.length + 1` (the code's off-by-one boundary
check), falling through to the next keyword if the check fails. On a hit it
returns the updated highlight vector and the advanced scan index. -/
def keyword_func (render : List Char) (hl : List Highlight) (i : Nat)
    (khl : Highlight) : List (List Char) → Option (List Highlight × Nat)
  | [] => none
  | kw :: rest =>
    let s := (render.drop i).take kw.length
    if s = kw then
      if i + kw.length = render.length then
        some (setRange hl i (i + kw.length) khl, i + kw.length)
      else if i + kw.length + 1 < render.length then
        match render[i + kw.length + 1]? with
        | some e =>
          if is_separator e then
            some (setRange hl i (i + kw.length) khl, i + kw.length)
          else keyword_func render hl i khl rest
        | none => keyword_func render hl i khl rest
      else keyword_func render hl i khl rest
    else keyword_func render hl i khl rest

/-- The Number branch of one `clear_highlight` iteration: the possibly
updated highlight vector and `prev_separator`. -/
def numberStep (fty : FileType) (c : Char) (prevHl : Highlight) (prevSep : Bool)
    (i : Nat) (hl1 : List Highlight) : List Highlight × Bool :=
  if fty.is_highlight HighlightType.Number ∧ c.isDigit ∧
      (prevSep ∨ prevHl = Highlight.Number) then
    (hl1.set i Highlight.Number, false)
  else if fty.is_highlight HighlightType.Number ∧ c = '.' ∧
      prevHl = Highlight.Number then
    (hl1.set i Highlight.Number, false)
  else (hl1, prevSep)

/-- The String branch of one `clear_highlight` iteration: the possibly
updated highlight vector, `prev_separator`, `in_string` and `quote`. -/
def stringStep (fty : FileType) (c prevChar quote : Char) (inString : Bool)
    (psep2 : Bool) (i : Nat) (hl2 : List Highlight) :
    List Highlight × Bool × Bool × Char :=
  if fty.is_highlight HighlightType.String then
    if inString then
      (hl2.set i Highlight.String, true,
       (if c = quote ∧ prevChar ≠ '\\' then false else true), quote)
    else if c = '\'' ∨ c = '"' then
      (hl2.set i Highlight.String, psep2, true, c)
    else (hl2, psep2, inString, quote)
  else (hl2, psep2, inString, quote)

/-- The single-line-comment test of one `clear_highlight` iteration:
outside strings and comments, does the remaining text start with the
single-line comment marker? -/
def slCommentHit (fty : FileType) (render : List Char) (i : Nat)
    (inString3 inComment : Bool) : Bool :=
  if fty.is_highlight HighlightType.Comment ∧ inString3 = false ∧
      inComment = false then
    match fty.singleline_comment_start with
    | some cs => decide ((render.drop i).take cs.length = cs)
    | none => false
  else false

/-- The multi-line-comment open test: outside an open comment, the length
of the open marker when the remaining text starts with it. -/
def mlOpenCheck (fty : FileType) (render : List Char) (i : Nat)
    (inComment : Bool) : Option Nat :=
  if fty.is_highlight HighlightType.MultilineComment ∧ inComment = false then
    match fty.multiline_comment_start with
    | some cs =>
      if (render.drop i).take cs.length = cs then some cs.length else none
    | none => none
  else none

/-- A gated keyword-list scan: `keyword_func` runs only when the previous
character was a separator and the scan is not inside a comment. -/
def keywordCheck (fty : FileType) (render : List Char) (hl4 : List Highlight)
    (i : Nat) (psep3 inComment : Bool) (hlType : HighlightType)
    (khl : Highlight) (kws : List (List Char)) : Option (List Highlight × Nat) :=
  if fty.is_highlight hlType ∧ psep3 = true ∧ inComment = false then
    keyword_func render hl4 i khl kws
  else none

/-- The in-comment arm of the multi-line-comment branch: when inside an
open comment, tag the current character `MultilineComment` and report the
close-marker length when the remaining text matches the close marker. -/
def mlCloseStep (fty : FileType) (render : List Char) (i : Nat)
    (inComment : Bool) (hl3 : List Highlight) : List Highlight × Option Nat :=
  if fty.is_highlight HighlightType.MultilineComment ∧ inComment = true then
    let hl4 := hl3.set i Highlight.MultilineComment
    match fty.multiline_comment_end with
    | some ce =>
      if (render.drop i).take ce.length = ce then (hl4, some ce.length)
      else (hl4, none)
    | none => (hl4, none)
  else (hl3, none)

/-- One iteration of the `'char_loop` in `EditorLine::clear_highlight`:
either the loop returns (single-line comment) or it continues with a new
scan state. -/
inductive HlStep where
  | done : List Highlight × Bool → HlStep
  | next : Nat → List Highlight → Highlight → Bool → Char → Bool → Bool → Char → HlStep

/-- The body of one `'char_loop` iteration of `EditorLine::clear_highlight`,
for the character `c` at index `i`.  State components mirror the Rust local
variables: highlight vector, `prev_highlight`, `prev_separator`,
`prev_char`, `in_string`, `in_comment`, `quote`. -/
def hlStep (ft : Option FileType) (render : List Char) (i : Nat)
    (hl : List Highlight) (prevHl : Highlight) (prevSep : Bool)
    (prevChar : Char) (inString inComment : Bool) (quote : Char)
    (c : Char) : HlStep :=
  let hl1 := hl.set i Highlight.Normal
  match ft with
  | none =>
    HlStep.next (i + 1) hl1 Highlight.Normal (is_separator c) c inString inComment quote
  | some fty =>
    let s1 : List Highlight × Bool := numberStep fty c prevHl prevSep i hl1
    let s2 : List Highlight × Bool × Bool × Char :=
      stringStep fty c prevChar quote inString s1.2 i s1.1
    let hl3 := s2.1
    let psep3 := s2.2.1
    let inString3 := s2.2.2.1
    let quote3 := s2.2.2.2
    if slCommentHit fty render i inString3 inComment then
      HlStep.done (setRange hl3 i render.length Highlight.Comment, false)
    else
      match mlOpenCheck fty render i inComment with
      | some n =>
        HlStep.next (i + n) (setRange hl3 i (i + n) Highlight.MultilineComment)
          prevHl psep3 prevChar inString3 true quote3
      | none =>
        let mc : List Highlight × Option Nat := mlCloseStep fty render i inComment hl3
        match mc.2 with
        | some n =>
          HlStep.next (i + n) (setRange mc.1 i (i + n) Highlight.MultilineComment)
            prevHl true prevChar inString3 false quote3
        | none =>
          let hl4 := mc.1
          match keywordCheck fty render hl4 i psep3 inComment HighlightType.Keyword1
              Highlight.Keyword1 fty.keyword1 with
          | some r =>
            HlStep.next r.2 r.1 Highlight.Keyword1 psep3 prevChar inString3 inComment quote3
          | none =>
            match keywordCheck fty render hl4 i psep3 inComment HighlightType.Keyword2
                Highlight.Keyword2 fty.keyword2 with
            | some r =>
              HlStep.next r.2 r.1 Highlight.Keyword2 psep3 prevChar inString3 inComment quote3
            | none =>
              HlStep.next (i + 1) hl4 (hl4.getD i Highlight.Normal)
                (is_separator c) c inString3 inComment quote3

/-- The `'char_loop: while i < self.render.len()` loop of
`EditorLine::clear_highlight`.  `fuel` bounds the number of iterations; the
scan index advances by at least one per iteration, so `render.length` fuel
always suffices.  Returns the final highlight vector and the outbound
`open_comment` value. -/
def hlLoop (ft : Option FileType) (render : List Char) :
    Nat → Nat → List Highlight → Highlight → Bool → Char → Bool → Bool → Char →
    List Highlight × Bool
  | 0, _, hl, _, _, _, _, inComment, _ => (hl, inComment)
  | fuel + 1, i, hl, prevHl, prevSep, prevChar, inString, inComment, quote =>
    match render[i]? with
    | none => (hl, inComment)
    | some c =>
      match hlStep ft render i hl prevHl prevSep prevChar inString inComment quote c with
      | HlStep.done r => r
      | HlStep.next i' hl' a b d e f g =>
        hlLoop ft render fuel i' hl' a b d e f g

/-- `EditorLine::clear_highlight` from buffer.rs: resizes the highlight
vector to the render length, runs the scan with inbound carry
`open_comment`, stores the outbound flag in the line and also returns it. -/
def EditorLine.clear_highlight (el : EditorLine) (open_comment : Bool) :
    EditorLine × Bool :=
  let hl0 :=
    if el.render.length ≠ el.highlight.length then
      resize el.highlight el.render.length Highlight.Normal
    else el.highlight
  let r := hlLoop el.file_type el.render el.render.length 0 hl0 Highlight.Normal
    true '\x00' false open_comment '\x00'
  ({ el with highlight := r.1, open_comment := r.2 }, r.2)

/-- `EditorLine::new` from buffer.rs. -/
def EditorLine.new (line : List Char) (file_type : Option FileType) : EditorLine :=
  (EditorLine.clear_highlight
    { raw := line, render := convert_render line, highlight := [],
      file_type := file_type, open_comment := false } false).1

/-- `EditorBuffer` from buffer.rs. -/
structure EditorBuffer where
  lines : List EditorLine
  filepath : Option (List Char)
  dirty : Bool
  file_type : Option FileType
deriving DecidableEq, Repr

def EditorBuffer.get_line (buf : EditorBuffer) (num : Nat) : Option (List Char) :=
  (buf.lines[num]?).map (fun el => el.raw)

/-- The `for i in cy..self.lines.len()` loop of
`EditorBuffer::clear_highlight`, threading each line's outbound
`open_comment` into the next line's recomputation. -/
def processLines : List EditorLine → Bool → List EditorLine
  | [], _ => []
  | l :: ls, oc =>
    let r := EditorLine.clear_highlight l oc
    r.1 :: processLines ls r.2

/-- `EditorBuffer::clear_highlight` from buffer.rs.  For `cy > 0` the code
indexes `self.lines[cy - 1]`, which panics when out of range (`none`). -/
def EditorBuffer.clear_highlight (buf : EditorBuffer) (cy : Nat) :
    Option EditorBuffer :=
  let oc? : Option Bool :=
    if cy = 0 then some false
    else (buf.lines[cy - 1]?).map (fun el => el.open_comment)
  match oc? with
  | none => none
  | some oc =>
    some { buf with
      lines := buf.lines.take cy ++ processLines (buf.lines.drop cy) oc }

/-- `EditorBuffer::insert_char`.  `String::insert` panics when the index is
past the end, hence the `none` branch. -/
def EditorBuffer.insert_char (buf : EditorBuffer) (cx cy : Nat) (c : Char) :
    Option EditorBuffer :=
  match buf.lines[cy]? with
  | none => some buf
  | some el =>
    if cx ≤ el.raw.length then
      let raw' := el.raw.take cx ++ c :: el.raw.drop cx
      let el' := { el with raw := raw', render := convert_render raw' }
      EditorBuffer.clear_highlight
        { buf with lines := buf.lines.set cy el', dirty := true } cy
    else none

/-- `EditorBuffer::delete_char`: guarded by `cx < el.raw.len()`, so it never
panics; out of range in either coordinate leaves the buffer unchanged. -/
def EditorBuffer.delete_char (buf : EditorBuffer) (cx cy : Nat) :
    Option EditorBuffer :=
  match buf.lines[cy]? with
  | none => some buf
  | some el =>
    if cx < el.raw.length then
      let raw' := el.raw.take cx ++ el.raw.drop (cx + 1)
      let el' := { el with raw := raw', render := convert_render raw' }
      EditorBuffer.clear_highlight
        { buf with lines := buf.lines.set cy el', dirty := true } cy
    else some buf

/-- `EditorBuffer::delete_line`: `Vec::remove` panics when `cy` is out of
range. -/
def EditorBuffer.delete_line (buf : EditorBuffer) (cy : Nat) :
    Option EditorBuffer :=
  if cy < buf.lines.length then
    some { buf with lines := buf.lines.eraseIdx cy, dirty := true }
  else none

/-- `EditorBuffer::replace_line`: `self.lines[cy] = ...` panics when `cy` is
out of range; it does not set the dirty flag. -/
def EditorBuffer.replace_line (buf : EditorBuffer) (cy : Nat)
    (new_line : List Char) : Option EditorBuffer :=
  if cy < buf.lines.length then
    some { buf with lines := buf.lines.set cy (EditorLine.new new_line buf.file_type) }
  else none

/-- `EditorBuffer::append_string`.  `String::insert_str` panics when the
index is past the end. -/
def EditorBuffer.append_string (buf : EditorBuffer) (cx cy : Nat)
    (message : List Char) : Option EditorBuffer :=
  match buf.lines[cy]? with
  | none => some buf
  | some el =>
    if cx ≤ el.raw.length then
      let raw' := el.raw.take cx ++ message ++ el.raw.drop cx
      let el' := { el with raw := raw', render := convert_render raw' }
      EditorBuffer.clear_highlight
        { buf with lines := buf.lines.set cy el', dirty := true } cy
    else none

/-- `EditorBuffer::cx_to_rx` from buffer.rs. -/
def EditorBuffer.cx_to_rx (buf : EditorBuffer) (cx cy : Nat) : Nat :=
  match buf.get_line cy with
  | none => 0
  | some line =>
    (line.take cx).foldl
      (fun rx c =>
        if c = '\t' then rx + ((TAB_STOP - 1) - rx % TAB_STOP) + 1 else rx + 1) 0

/-- `Component` from screen.rs. -/
structure Component where
  x : Nat
  y : Nat
  width : Nat
  height : Nat
deriving DecidableEq, Repr

/-- `EditorScreen` from screen.rs. -/
structure EditorScreen where
  component : Component
  buffer : EditorBuffer
  cx : Nat
  cy : Nat
  rx : Nat
  offset_x : Nat
  offset_y : Nat
deriving DecidableEq, Repr

/-- `EditorScreen::adjust` from screen.rs: clamp `cx` to the current line's
length, recompute `rx`, then pull each offset so the cursor lies inside the
viewport. -/
def EditorScreen.adjust (s : EditorScreen) : EditorScreen :=
  let cx1 :=
    match s.buffer.get_line s.cy with
    | some line => if line.length < s.cx then line.length else s.cx
    | none => s.cx
  let rx1 :=
    if s.cy < s.buffer.lines.length then s.buffer.cx_to_rx cx1 s.cy else 0
  let ox1 := if rx1 < s.offset_x then rx1 else s.offset_x
  let ox2 := if rx1 ≥ ox1 + s.component.width then rx1 - s.component.width + 1 else ox1
  let oy1 := if s.cy < s.offset_y then s.cy else s.offset_y
  let oy2 := if s.cy ≥ oy1 + s.component.height then s.cy - s.component.height + 1 else oy1
  { s with cx := cx1, rx := rx1, offset_x := ox2, offset_y := oy2 }

/-- Rust `str::find`: index of the first occurrence of `q` in `s`
(`some 0` for the empty pattern). -/
def strFind (q : List Char) : List Char → Option Nat
  | [] => if leadsWith q [] then some 0 else none
  | c :: s =>
    if leadsWith q (c :: s) then some 0
    else (strFind q s).map (fun j => j + 1)

/-- Rust `str::rfind`: index of the last occurrence of `q` in `s`. -/
def strRFind (q : List Char) : List Char → Option Nat
  | [] => if leadsWith q [] then some 0 else none
  | c :: s =>
    match (strRFind q s).map (fun j => j + 1) with
    | some j => some j
    | none => if leadsWith q (c :: s) then some 0 else none

/-- The `for i in self.cy..self.buffer.len()` loop of
`EditorScreen::find`.  `none` models the panic of `line[begin..len]` when
`begin > len`; `some none` is "no match"; `some (some (x, y))` is a match at
column `x` of row `y`. -/
def findWalk (lines : List EditorLine) (q : List Char) (cx cy : Nat) :
    Nat → Nat → Option (Option (Nat × Nat))
  | _, 0 => some none
  | i, fuel + 1 =>
    match lines[i]? with
    | none => findWalk lines q cx cy (i + 1) fuel
    | some el =>
      let begin_ := if i = cy then cx else 0
      if el.raw.length < begin_ then none
      else
        match strFind q (el.raw.drop begin_) with
        | some j => some (some (begin_ + j, i))
        | none => findWalk lines q cx cy (i + 1) fuel

/-- `EditorScreen::find` from screen.rs, with the cursor mutation made
explicit: returns the success flag and the updated screen. -/
def EditorScreen.find (scr : EditorScreen) (q : List Char) :
    Option (Bool × EditorScreen) :=
  match findWalk scr.buffer.lines q scr.cx scr.cy scr.cy
      (scr.buffer.lines.length - scr.cy) with
  | none => none
  | some none => some (false, scr)
  | some (some (x, y)) => some (true, { scr with cx := x, cy := y })

/-- One row probe of `EditorScreen::rfind`: row `i` is searched in the
window `line[0..end]` where `end` is `cx` on the starting row and the row
length elsewhere.  `none` models the slicing panic when `end > len`. -/
def rfindRow (lines : List EditorLine) (q : List Char) (cx cy i : Nat) :
    Option (Option Nat) :=
  match lines[i]? with
  | none => some none
  | some el =>
    let e := if i = cy then cx else el.raw.length
    if el.raw.length < e then none
    else some (strRFind q (el.raw.take e))

/-- The `for i in (0..=self.cy).rev()` loop of `EditorScreen::rfind`. -/
def rfindWalk (lines : List EditorLine) (q : List Char) (cx cy : Nat) :
    Nat → Option (Option (Nat × Nat))
  | 0 =>
    match rfindRow lines q cx cy 0 with
    | none => none
    | some (some j) => some (some (j, 0))
    | some none => some none
  | i + 1 =>
    match rfindRow lines q cx cy (i + 1) with
    | none => none
    | some (some j) => some (some (j, i + 1))
    | some none => rfindWalk lines q cx cy i

/-- `EditorScreen::rfind` from screen.rs. -/
def EditorScreen.rfind (scr : EditorScreen) (q : List Char) :
    Option (Bool × EditorScreen) :=
  match rfindWalk scr.buffer.lines q scr.cx scr.cy scr.cy with
  | none => none
  | some none => some (false, scr)
  | some (some (x, y)) => some (true, { scr with cx := x, cy := y })

/-- `EditorKey` from key.rs. -/
inductive EditorKey where
  | ArrowLeft
  | ArrowRight
  | ArrowUp
  | ArrowDown
  | PageUp
  | PageDown
  | Home
  | End
  | Enter
  | Delete
  | Backspace
  | Escape
  | ControlSequence : Char → EditorKey
  | NormalKey : Char → EditorKey
deriving DecidableEq, Repr

/-- The static escape-sequence table of `read_editor_key`. -/
def escape_sequence_table : List (List Char × EditorKey) :=
  [(("\x1b[A").toList, EditorKey.ArrowUp),
   (("\x1b[B").toList, EditorKey.ArrowDown),
   (("\x1b[C").toList, EditorKey.ArrowRight),
   (("\x1b[D").toList, EditorKey.ArrowLeft),
   (("\x1b[H").toList, EditorKey.Home),
   (("\x1b[F").toList, EditorKey.End),
   (("\x1b[1~").toList, EditorKey.Home),
   (("\x1b[3~").toList, EditorKey.Delete),
   (("\x1b[4~").toList, EditorKey.End),
   (("\x1b[5~").toList, EditorKey.PageUp),
   (("\x1b[6~").toList, EditorKey.PageDown),
   (("\x1b[7~").toList, EditorKey.Home),
   (("\x1b[8~").toList, EditorKey.End),
   (("\x1bOH").toList, EditorKey.Home),
   (("\x1bOF").toList, EditorKey.End)]

/-- The escape-sequence accumulation loop of `read_editor_key`: append the
next byte, filter the table to entries having the buffer as a prefix, emit
`Escape` when none remain, emit the entry's key when exactly one remains
and the buffer equals it, otherwise keep reading.  `none` means the input
was exhausted (the Rust read loop would block forever). -/
def escLoop : List Char → List Char → Option EditorKey
  | _, [] => none
  | buf, c :: rest =>
    let buf' := buf ++ [c]
    match escape_sequence_table.filter (fun seq => leadsWith buf' seq.1) with
    | [] => some EditorKey.Escape
    | [e] => if buf' = e.1 then some e.2 else escLoop buf' rest
    | _ :: _ :: _ => escLoop buf' rest

/-- `read_editor_key` from key.rs, on a list of input bytes (as chars).
The `'\x01'..'\x1b'` Rust range pattern covers bytes 1 through 26, but the
`'\r'` arm above it captures byte 13 first. -/
def read_editor_key : List Char → Option EditorKey
  | [] => none
  | c :: rest =>
    if c = '\r' then some EditorKey.Enter
    else if 1 ≤ c.toNat ∧ c.toNat < 27 then
      some (EditorKey.ControlSequence (Char.ofNat (c.toNat + 96)))
    else if c = '\x1b' then escLoop [('\x1b')] rest
    else if c = '\x7f' then some EditorKey.Backspace
    else some (EditorKey.NormalKey c)

/-! ### Concrete fixtures used by the closed theorems below -/

/-- A buffer whose lines were loaded with no file type (as `load_string`
builds them). -/
def mkPlainBuffer (ls : List (List Char)) : EditorBuffer :=
  { lines := ls.map (fun l => EditorLine.new l none),
    filepath := none, dirty := false, file_type := none }

def bufC1 : EditorBuffer := mkPlainBuffer [("\t\tx").toList]

def emptyBuffer : EditorBuffer :=
  { lines := [], filepath := none, dirty := false, file_type := none }

def scrC2 : EditorScreen :=
  { component := ⟨0, 0, 0, 1⟩, buffer := mkPlainBuffer [[('a')]],
    cx := 0, cy := 0, rx := 0, offset_x := 0, offset_y := 0 }

def lineC4 : EditorLine := EditorLine.new [('a')] none

/-- Line carrying a `Match` override, as the search feature installs it. -/
def lineC4m : EditorLine :=
  { (EditorLine.new [('b')] none) with highlight := [Highlight.Match] }

def bufC4 : EditorBuffer :=
  { lines := [lineC4, lineC4m], filepath := none, dirty := false, file_type := none }

def scrC8 : EditorScreen :=
  { component := ⟨0, 0, 10, 10⟩, buffer := mkPlainBuffer [("ab").toList],
    cx := 0, cy := 0, rx := 0, offset_x := 0, offset_y := 0 }

/-- No `Match` tag among the entries of a highlight vector below index `n`. -/
def NoMatchBelow (l : List Highlight) (n : Nat) : Prop :=
  ∀ (k : Nat) (hh : Highlight), k < n → l[k]? = some hh → hh ≠ Highlight.Match

/-- No `Match` tag anywhere in a highlight vector. -/
def NoMatchAll (l : List Highlight) : Prop :=
  ∀ (k : Nat) (hh : Highlight), l[k]? = some hh → hh ≠ Highlight.Match

/-! ### Helper lemmas -/

/-- Arithmetic core of the two offset updates in `EditorScreen::adjust`. -/
theorem adjustOff (v off w : Nat) (hw : 1 ≤ w) :
    (if v ≥ (if v < off then v else off) + w then v - w + 1
     else (if v < off then v else off)) ≤ v ∧
    v < (if v ≥ (if v < off then v else off) + w then v - w + 1
         else (if v < off then v else off)) + w := by
  split_ifs <;> omega

/-! ### Claims -/

/-- Claim C1: `cx_to_rx` is supposed to give the render column of the Nth
character of `convert_render(raw)`.  On the line consisting of two tabs and
an `x`, `cx_to_rx` at index 2 yields 16, but `convert_render` places that
third character at render index 15 (the stray `i += 1` after the tab branch
makes the second tab expand to 7 spaces instead of 8). -/
theorem C1_tab_misalignment :
    EditorBuffer.cx_to_rx bufC1 2 0 = 16 ∧
    convert_render (("\t\tx").toList) = List.replicate 15 ' ' ++ [('x')] ∧
    (convert_render (("\t\tx").toList))[15]? = some ('x') := by decide

/-- Claim C2 (counterexample): with a zero-width viewport over a non-empty
buffer, `adjust()` leaves `offset_x = rx + 1`, violating
`offset_x ≤ rx`. -/
theorem C2_counterexample :
    scrC2.buffer.lines ≠ [] ∧
    ¬ ((EditorScreen.adjust scrC2).offset_x ≤ (EditorScreen.adjust scrC2).rx) := by
  decide

/-- Claim C2 (amended): for every cursor/viewport state whose viewport has
positive width and height, after `adjust()` the render column lies in
`[offset_x, offset_x + width)`, the cursor row lies in
`[offset_y, offset_y + height)`, and `cx` does not exceed the current
line's content length. -/
theorem C2_adjust_invariants (s : EditorScreen)
    (hw : 1 ≤ s.component.width) (hh : 1 ≤ s.component.height)
    (_hne : s.buffer.lines ≠ []) :
    (EditorScreen.adjust s).offset_x ≤ (EditorScreen.adjust s).rx ∧
    (EditorScreen.adjust s).rx < (EditorScreen.adjust s).offset_x + s.component.width ∧
    (EditorScreen.adjust s).offset_y ≤ (EditorScreen.adjust s).cy ∧
    (EditorScreen.adjust s).cy < (EditorScreen.adjust s).offset_y + s.component.height ∧
    (∀ line, s.buffer.get_line (EditorScreen.adjust s).cy = some line →
      (EditorScreen.adjust s).cx ≤ line.length) := by
  unfold EditorScreen.adjust
  dsimp only
  refine ⟨(adjustOff _ _ _ hw).1, (adjustOff _ _ _ hw).2,
    (adjustOff _ _ _ hh).1, (adjustOff _ _ _ hh).2, ?_⟩
  intro line hline
  revert hline
  cases hgl : s.buffer.get_line s.cy with
  | none => intro hline; cases hline
  | some a =>
    intro hline
    cases hline
    dsimp only
    split <;> omega

theorem C2_adjust_invariants_witness :
    1 ≤ scrC2.component.height ∧ scrC2.buffer.lines ≠ [] ∧
    ((EditorScreen.adjust { scrC2 with component := ⟨0, 0, 1, 1⟩ }).offset_x ≤
      (EditorScreen.adjust { scrC2 with component := ⟨0, 0, 1, 1⟩ }).rx) :=
  ⟨by decide, by decide,
    (C2_adjust_invariants { scrC2 with component := ⟨0, 0, 1, 1⟩ }
      (by decide) (by decide) (by decide)).1⟩

/-- Claim C3: a keyword span is supposed to be tagged iff it is bounded by a
separator (or the line end) on the right; `keyword_func` instead inspects
the character at `i + len + 1`, one past the boundary.  So `if x` (C file
type) gets no `Keyword1` tag even though a separator follows the keyword,
`ifx,` tags its `if` even though `x` follows it, and only the line-end
branch (`if` alone) behaves as specified. -/
theorem C3_keyword_boundary_bug :
    (EditorLine.new (("if x").toList) (some FileType.C)).highlight =
      [Highlight.Normal, Highlight.Normal, Highlight.Normal, Highlight.Normal] ∧
    (EditorLine.new (("ifx,").toList) (some FileType.C)).highlight =
      [Highlight.Keyword1, Highlight.Keyword1, Highlight.Normal, Highlight.Normal] ∧
    (EditorLine.new (("if").toList) (some FileType.C)).highlight =
      [Highlight.Keyword1, Highlight.Keyword1] := by decide

/-- Claim C5 (counterexample): `delete_line` and `replace_line` on an
out-of-range row are not no-ops; they index the line vector out of bounds
and panic (modelled as `none`). -/
theorem C5_counterexample :
    EditorBuffer.delete_line emptyBuffer 0 = none ∧
    EditorBuffer.replace_line emptyBuffer 0 [] = none := by decide

/-- Claim C5 (amended): with an out-of-range row index, `insert_char`,
`delete_char` and `append_string` leave the buffer unchanged and do not
fail, while `delete_line` and `replace_line` panic. -/
theorem C5_out_of_range (buf : EditorBuffer) (cx cy : Nat) (c : Char)
    (msg line : List Char) (h : buf.lines.length ≤ cy) :
    EditorBuffer.insert_char buf cx cy c = some buf ∧
    EditorBuffer.delete_char buf cx cy = some buf ∧
    EditorBuffer.append_string buf cx cy msg = some buf ∧
    EditorBuffer.delete_line buf cy = none ∧
    EditorBuffer.replace_line buf cy line = none := by
  have hg : buf.lines[cy]? = none := by
    rw [List.getElem?_eq_none_iff]
    exact h
  refine ⟨?_, ?_, ?_, ?_, ?_⟩
  · unfold EditorBuffer.insert_char; rw [hg]
  · unfold EditorBuffer.delete_char; rw [hg]
  · unfold EditorBuffer.append_string; rw [hg]
  · unfold EditorBuffer.delete_line; rw [if_neg (by omega)]
  · unfold EditorBuffer.replace_line; rw [if_neg (by omega)]

theorem C5_out_of_range_witness :
    emptyBuffer.lines.length ≤ 0 ∧
    EditorBuffer.insert_char emptyBuffer 5 0 'a' = some emptyBuffer :=
  ⟨by decide, (C5_out_of_range emptyBuffer 5 0 'a' [] [] (by decide)).1⟩

/-- Claim C6: after an ESC byte the decoder accumulates bytes and filters
the escape-sequence table by prefix; it yields `Escape` as soon as no entry
matches, yields the entry's key as soon as exactly one candidate remains
and the buffer equals it, and in particular decodes `ESC [ 1 ~` to `Home`
and `ESC [ 9` to `Escape`. -/
theorem C6_escape_decoding :
    (∀ rest : List Char, read_editor_key ('\x1b' :: rest) = escLoop [('\x1b')] rest) ∧
    (∀ (buf : List Char) (c : Char) (rest : List Char),
      escape_sequence_table.filter (fun seq => leadsWith (buf ++ [c]) seq.1) = [] →
      escLoop buf (c :: rest) = some EditorKey.Escape) ∧
    (∀ (buf : List Char) (c : Char) (rest : List Char) (s : List Char) (k : EditorKey),
      escape_sequence_table.filter (fun seq => leadsWith (buf ++ [c]) seq.1) = [(s, k)] →
      buf ++ [c] = s →
      escLoop buf (c :: rest) = some k) ∧
    read_editor_key (("\x1b[1~").toList) = some EditorKey.Home ∧
    read_editor_key (("\x1b[9").toList) = some EditorKey.Escape := by
  refine ⟨?_, ?_, ?_, by decide, by decide⟩
  · intro rest
    simp [read_editor_key]
  · intro buf c rest hf
    simp only [escLoop]
    rw [hf]
  · intro buf c rest s k hf he
    simp only [escLoop]
    rw [hf]
    simp [he]

theorem C6_escape_decoding_witness :
    (escape_sequence_table.filter
      (fun seq => leadsWith ([('\x1b'), ('[')] ++ [('9')]) seq.1) = []) ∧
    escLoop [('\x1b'), ('[')] [('9')] = some EditorKey.Escape ∧
    (escape_sequence_table.filter
      (fun seq => leadsWith ([('\x1b'), ('[')] ++ [('A')]) seq.1) =
      [((("\x1b[A").toList), EditorKey.ArrowUp)]) ∧
    ([('\x1b'), ('[')] ++ [('A')] = ("\x1b[A").toList) ∧
    escLoop [('\x1b'), ('[')] [('A')] = some EditorKey.ArrowUp :=
  ⟨by decide, C6_escape_decoding.2.1 [('\x1b'), ('[')] '9' [] (by decide),
    by decide, by decide,
    C6_escape_decoding.2.2.1 [('\x1b'), ('[')] 'A' [] (("\x1b[A").toList)
      EditorKey.ArrowUp (by decide) (by decide)⟩

/-- Claim C7 (counterexample): byte 0x0D lies in 0x01..0x1A but the decoder
returns `Enter` for it, not `ControlSequence('m')` — the `'\r'` match arm
comes before the control-byte range. -/
theorem C7_counterexample :
    read_editor_key [('\x0d')] = some EditorKey.Enter ∧
    EditorKey.Enter ≠ EditorKey.ControlSequence (Char.ofNat (('\x0d').toNat + 96)) := by
  decide

/-- Claim C7 (amended): for every input whose first byte lies in 0x01..0x1A
and is not 0x0D (which the earlier `'\r'` arm turns into `Enter`), the
decoder returns `ControlSequence(byte + 96)`. -/
theorem C7_control_bytes (c : Char) (h1 : 1 ≤ c.toNat) (h2 : c.toNat ≤ 26)
    (h3 : c.toNat ≠ 13) :
    read_editor_key [c] = some (EditorKey.ControlSequence (Char.ofNat (c.toNat + 96))) := by
  have hcr : ¬ c = '\r' := by
    intro he
    apply h3
    rw [he]
    decide
  simp only [read_editor_key]
  rw [if_neg hcr, if_pos ⟨h1, by omega⟩]

theorem C7_control_bytes_witness :
    (1 ≤ ('\x01').toNat ∧ ('\x01').toNat ≤ 26 ∧ ('\x01').toNat ≠ 13) ∧
    read_editor_key [('\x01')] =
      some (EditorKey.ControlSequence (Char.ofNat (('\x01').toNat + 96))) :=
  ⟨by decide, C7_control_bytes '\x01' (by decide) (by decide) (by decide)⟩

/-- Claim C9 (counterexample): in the line `1.2.3` (C file type) the whole
line — one maximal Number run — is tagged Number, including both dots, so
"at most one decimal point per numeric run" fails on the code. -/
theorem C9_counterexample :
    (EditorLine.new (("1.2.3").toList) (some FileType.C)).render = ("1.2.3").toList ∧
    (EditorLine.new (("1.2.3").toList) (some FileType.C)).highlight =
      List.replicate 5 Highlight.Number := by decide

/-- Claim C9 (amended): a digit after a separator or a Number character is
Number, and every `.` immediately following a Number character is tagged
Number with no one-dot limit: both dots of `1.2.3` and of `1..` are Number,
while dots not preceded by a Number character stay Normal (`x..`). -/
theorem C9_number_dots :
    (EditorLine.new (("1..").toList) (some FileType.C)).highlight =
      [Highlight.Number, Highlight.Number, Highlight.Number] ∧
    (EditorLine.new (("1.2.3").toList) (some FileType.C)).highlight =
      List.replicate 5 Highlight.Number ∧
    (EditorLine.new (("x..").toList) (some FileType.C)).highlight =
      [Highlight.Normal, Highlight.Normal, Highlight.Normal] := by decide

/-- Claim C10: `find` and `rfind` never change the buffer, and whenever
they report failure they leave the cursor (the whole screen state)
unchanged. -/
theorem C10_search_pure (scr : EditorScreen) (q : List Char) (r : Bool × EditorScreen) :
    (EditorScreen.find scr q = some r →
      r.2.buffer = scr.buffer ∧ (r.1 = false → r.2 = scr)) ∧
    (EditorScreen.rfind scr q = some r →
      r.2.buffer = scr.buffer ∧ (r.1 = false → r.2 = scr)) := by
  constructor
  · intro h
    unfold EditorScreen.find at h
    split at h
    · cases h
    · cases h
      exact ⟨rfl, fun _ => rfl⟩
    · cases h
      refine ⟨rfl, fun hf => ?_⟩
      cases hf
  · intro h
    unfold EditorScreen.rfind at h
    split at h
    · cases h
    · cases h
      exact ⟨rfl, fun _ => rfl⟩
    · cases h
      refine ⟨rfl, fun hf => ?_⟩
      cases hf

theorem C10_search_pure_witness :
    EditorScreen.find scrC8 (("zz").toList) = some (false, scrC8) ∧
    EditorScreen.rfind scrC8 (("zz").toList) = some (false, scrC8) ∧
    (false, scrC8).2 = scrC8 ∧ (false, scrC8).2.buffer = scrC8.buffer :=
  ⟨by decide, by decide,
    ((C10_search_pure scrC8 (("zz").toList) (false, scrC8)).1 (by decide)).2 rfl,
    ((C10_search_pure scrC8 (("zz").toList) (false, scrC8)).2 (by decide)).1⟩

/-! ### Substring-search lemmas for the find/rfind round trip -/

theorem leadsWith_length {q s : List Char} (h : leadsWith q s = true) :
    q.length ≤ s.length := by
  induction q generalizing s with
  | nil => simp
  | cons a as ih =>
    cases s with
    | nil => cases h
    | cons b bs =>
      simp only [leadsWith, Bool.and_eq_true] at h
      simpa using ih h.2

theorem leadsWith_take {q s : List Char} (h : leadsWith q s = true) :
    leadsWith q (s.take q.length) = true := by
  induction q generalizing s with
  | nil => simp [leadsWith]
  | cons a as ih =>
    cases s with
    | nil => cases h
    | cons b bs =>
      simp only [leadsWith, Bool.and_eq_true] at h ⊢
      exact ⟨h.1, by simpa using ih h.2⟩

theorem strFind_some {q s : List Char} {j : Nat} (h : strFind q s = some j) :
    j ≤ s.length ∧ leadsWith q (s.drop j) = true := by
  induction s generalizing j with
  | nil =>
    unfold strFind at h
    split at h
    · cases h
      exact ⟨Nat.le_refl 0, by assumption⟩
    · cases h
  | cons c s ih =>
    unfold strFind at h
    split at h
    · cases h
      exact ⟨Nat.zero_le _, by assumption⟩
    · rcases Option.map_eq_some'.1 h with ⟨j', hj', rfl⟩
      obtain ⟨h1, h2⟩ := ih hj'
      exact ⟨by simpa using Nat.succ_le_succ h1, by simpa using h2⟩

theorem strRFind_none_of {q s : List Char}
    (h : ∀ j, j ≤ s.length → ¬ leadsWith q (s.drop j) = true) :
    strRFind q s = none := by
  induction s with
  | nil =>
    unfold strRFind
    rw [if_neg (by simpa using h 0 (by simp))]
  | cons c s ih =>
    have hrec : strRFind q s = none := by
      apply ih
      intro j hj hcon
      exact h (j + 1) (by simp only [List.length_cons]; omega) (by simpa using hcon)
    unfold strRFind
    rw [hrec]
    simp only [Option.map_none']
    rw [if_neg (by simpa using h 0 (by simp))]

theorem strRFind_eq_some {q s : List Char} {x : Nat}
    (hocc : leadsWith q (s.drop x) = true) (hx : x ≤ s.length)
    (hmax : ∀ j, j ≤ s.length → leadsWith q (s.drop j) = true → j ≤ x) :
    strRFind q s = some x := by
  induction s generalizing x with
  | nil =>
    have hx0 : x = 0 := Nat.le_zero.1 hx
    subst hx0
    unfold strRFind
    rw [if_pos (by simpa using hocc)]
  | cons c s ih =>
    cases x with
    | zero =>
      have hnone : strRFind q s = none := by
        apply strRFind_none_of
        intro j hj hcon
        have h2 := hmax (j + 1) (by simp only [List.length_cons]; omega)
          (by simpa using hcon)
        omega
      unfold strRFind
      rw [hnone]
      simp only [Option.map_none']
      rw [if_pos (by simpa using hocc)]
    | succ x' =>
      have hrec : strRFind q s = some x' := by
        apply ih
        · simpa using hocc
        · simp only [List.length_cons] at hx
          omega
        · intro j hj hcon
          have h2 := hmax (j + 1) (by simp only [List.length_cons]; omega)
            (by simpa using hcon)
          omega
      unfold strRFind
      rw [hrec]
      rfl

theorem findWalk_sound {lines : List EditorLine} {q : List Char} {cx cy : Nat} :
    ∀ {fuel i x y : Nat},
      findWalk lines q cx cy i fuel = some (some (x, y)) →
      ∃ el, lines[y]? = some el ∧
        ¬ (el.raw.length < (if y = cy then cx else 0)) ∧
        ∃ j, strFind q (el.raw.drop (if y = cy then cx else 0)) = some j ∧
          x = (if y = cy then cx else 0) + j := by
  intro fuel
  induction fuel with
  | zero => intro i x y h; cases h
  | succ fuel ih =>
    intro i x y h
    unfold findWalk at h
    cases hel : lines[i]? with
    | none =>
      rw [hel] at h
      exact ih h
    | some el =>
      rw [hel] at h
      dsimp only at h
      by_cases hg : el.raw.length < (if i = cy then cx else 0)
      · rw [if_pos hg] at h
        exact Option.noConfusion h
      · rw [if_neg hg] at h
        cases hsf : strFind q (el.raw.drop (if i = cy then cx else 0)) with
        | none =>
          rw [hsf] at h
          exact ih h
        | some j =>
          rw [hsf] at h
          have h2 : ((if i = cy then cx else 0) + j, i) = (x, y) :=
            Option.some.inj (Option.some.inj h)
          cases h2
          exact ⟨el, hel, hg, j, hsf, rfl⟩

theorem rfindWalk_hit {lines : List EditorLine} {q : List Char} {cx cy x : Nat}
    {el : EditorLine} (hel : lines[cy]? = some el)
    (hguard : ¬ (el.raw.length < cx))
    (hfind : strRFind q (el.raw.take cx) = some x) :
    rfindWalk lines q cx cy cy = some (some (x, cy)) := by
  have hrow : rfindRow lines q cx cy cy = some (some x) := by
    unfold rfindRow
    rw [hel]
    dsimp only
    rw [if_pos rfl, if_neg hguard, hfind]
  cases cy with
  | zero =>
    unfold rfindWalk
    rw [hrow]
  | succ n =>
    unfold rfindWalk
    rw [hrow]

/-- Claim C8 (counterexample): on the one-line buffer `ab` with the cursor
at the origin, `find "ab"` succeeds leaving the cursor at the match (0,0),
but `rfind "ab"` invoked immediately from that cursor position fails — its
search window on the current row is `line[0..cx]`, which excludes the match
that starts at `cx`. -/
theorem C8_counterexample :
    EditorScreen.find scrC8 (("ab").toList) = some (true, scrC8) ∧
    EditorScreen.rfind scrC8 (("ab").toList) = some (false, scrC8) := by decide

/-- Claim C8 (amended): if `find(query)` succeeds and moves the cursor to a
match position, then `rfind(query)` started from the cursor advanced to the
end of that occurrence (match column plus query length) succeeds and
returns the cursor to exactly the match position.  Started from the match
position itself the occurrence lies outside `rfind`'s window
`line[0..cx]`. -/
theorem C8_find_rfind_roundtrip (scr scr' : EditorScreen) (q : List Char)
    (h : EditorScreen.find scr q = some (true, scr')) :
    EditorScreen.rfind { scr' with cx := scr'.cx + q.length } q = some (true, scr') := by
  unfold EditorScreen.find at h
  split at h
  · cases h
  · simp at h
  · rename_i x y hwalk
    have hinj : ((true : Bool), { scr with cx := x, cy := y }) = ((true : Bool), scr') :=
      Option.some.inj h
    have hscr' : scr' = { scr with cx := x, cy := y } := (Prod.ext_iff.1 hinj).2.symm
    subst hscr'
    obtain ⟨el, hel, hguard, j, hj, hx⟩ := findWalk_sound hwalk
    obtain ⟨hjle, hocc⟩ := strFind_some hj
    set b := (if y = scr.cy then scr.cx else 0) with hb
    have hble : b ≤ el.raw.length := Nat.le_of_not_lt hguard
    have hocc' : leadsWith q (el.raw.drop x) = true := by
      have h2 : (el.raw.drop b).drop j = el.raw.drop x := by
        rw [List.drop_drop]
        congr 1
        omega
      rw [← h2]
      exact hocc
    have hjle' : j ≤ el.raw.length - b := by
      simpa [List.length_drop] using hjle
    have hxle : x ≤ el.raw.length := by omega
    have hqlen : q.length ≤ el.raw.length - x := by
      have := leadsWith_length hocc'
      simpa [List.length_drop] using this
    have hxq : x + q.length ≤ el.raw.length := by omega
    have hwl : (el.raw.take (x + q.length)).length = x + q.length := by
      rw [List.length_take]
      omega
    have hwin : strRFind q (el.raw.take (x + q.length)) = some x := by
      apply strRFind_eq_some
      · have hdt : (el.raw.take (x + q.length)).drop x =
            (el.raw.drop x).take q.length := by
          rw [List.drop_take]
          congr 1
          omega
        rw [hdt]
        exact leadsWith_take hocc'
      · rw [hwl]
        omega
      · intro jj hjj hcon
        have hlen := leadsWith_length hcon
        rw [List.length_drop, hwl] at hlen
        rw [hwl] at hjj
        omega
    have hguard2 : ¬ (el.raw.length < x + q.length) := Nat.not_lt.2 hxq
    unfold EditorScreen.rfind
    dsimp only
    rw [rfindWalk_hit hel hguard2 hwin]

theorem C8_find_rfind_roundtrip_witness :
    EditorScreen.find scrC8 (("ab").toList) = some (true, scrC8) ∧
    EditorScreen.rfind { scrC8 with cx := scrC8.cx + (("ab").toList).length }
      (("ab").toList) = some (true, scrC8) :=
  ⟨by decide, C8_find_rfind_roundtrip scrC8 scrC8 (("ab").toList) (by decide)⟩

/-! ### No-Match invariants for the highlight recomputation -/

theorem getElem?_set_ite {α : Type} (l : List α) (i j : Nat) (a : α) :
    (l.set i a)[j]? = if i = j ∧ j < l.length then some a else l[j]? := by
  induction l generalizing i j with
  | nil => simp
  | cons x xs ih =>
    cases i with
    | zero =>
      cases j with
      | zero => simp
      | succ j => simp
    | succ i =>
      cases j with
      | zero => simp
      | succ j =>
        simp only [List.set, List.getElem?_cons_succ, List.length_cons, ih]
        by_cases hc : i = j ∧ j < xs.length
        · rw [if_pos hc, if_pos ⟨by omega, by omega⟩]
        · rw [if_neg hc, if_neg (by omega)]

theorem setFrom_length : ∀ (n : Nat) (l : List Highlight) (b : Nat) (v : Highlight),
    (setFrom l b n v).length = l.length := by
  intro n
  induction n with
  | zero => intro l b v; rfl
  | succ n ih =>
    intro l b v
    rw [setFrom, ih, List.length_set]

theorem setFrom_getElem? : ∀ (n : Nat) (l : List Highlight) (b j : Nat) (v : Highlight),
    (setFrom l b n v)[j]? =
      if b ≤ j ∧ j < b + n ∧ j < l.length then some v else l[j]? := by
  intro n
  induction n with
  | zero =>
    intro l b j v
    rw [setFrom, if_neg (by omega)]
  | succ n ih =>
    intro l b j v
    rw [setFrom, ih, List.length_set, getElem?_set_ite]
    by_cases h1 : b = j
    · subst h1
      by_cases h2 : b < l.length
      · rw [if_neg (by omega), if_pos ⟨rfl, h2⟩, if_pos (by omega)]
      · rw [if_neg (by omega), if_neg (by omega), if_neg (by omega)]
    · by_cases h2 : b + 1 ≤ j ∧ j < b + 1 + n ∧ j < l.length
      · rw [if_pos h2, if_pos (by omega)]
      · rw [if_neg h2, if_neg (by omega), if_neg (by omega)]

theorem nmb_mono {l : List Highlight} {n m : Nat}
    (h : NoMatchBelow l n) (hm : m ≤ n) : NoMatchBelow l m :=
  fun k hh hk hg => h k hh (by omega) hg

theorem nmb_of_length_le {l : List Highlight} {k : Nat} {hh : Highlight}
    (hlen : l.length ≤ k) (hg : l[k]? = some hh) : False := by
  rw [List.getElem?_eq_none_iff.2 hlen] at hg
  cases hg

theorem nmb_set_keep {l : List Highlight} {n i : Nat} {v : Highlight}
    (hv : v ≠ Highlight.Match) (h : NoMatchBelow l n) :
    NoMatchBelow (l.set i v) n := by
  intro k hh hk hg
  rw [getElem?_set_ite] at hg
  split at hg
  · cases hg
    exact hv
  · exact h k hh hk hg

theorem nmb_set_extend {l : List Highlight} {i : Nat} {v : Highlight}
    (hv : v ≠ Highlight.Match) (h : NoMatchBelow l i) :
    NoMatchBelow (l.set i v) (i + 1) := by
  intro k hh hk hg
  rw [getElem?_set_ite] at hg
  split at hg
  · cases hg
    exact hv
  · rename_i hcond
    by_cases hki : k < i
    · exact h k hh hki hg
    · have hk' : k = i := by omega
      subst hk'
      have hlen : l.length ≤ k := by
        by_contra hcon
        exact hcond ⟨rfl, by omega⟩
      exact absurd (nmb_of_length_le hlen hg) (fun f => f)

theorem nmb_setFrom {l : List Highlight} {i m : Nat} {v : Highlight}
    (hv : v ≠ Highlight.Match) (h : NoMatchBelow l i) :
    NoMatchBelow (setFrom l i m v) (i + m) := by
  intro k hh hk hg
  rw [setFrom_getElem?] at hg
  split at hg
  · cases hg
    exact hv
  · rename_i hcond
    by_cases hki : k < i
    · exact h k hh hki hg
    · have hlen : l.length ≤ k := by omega
      exact absurd (nmb_of_length_le hlen hg) (fun f => f)

theorem nmb_all {l : List Highlight}
    (h : NoMatchBelow l l.length) : NoMatchAll l := by
  intro k hh hg
  by_cases hk : k < l.length
  · exact h k hh hk hg
  · exact absurd (nmb_of_length_le (by omega) hg) (fun f => f)

theorem numberStep_fst (fty : FileType) (c : Char) (prevHl : Highlight)
    (prevSep : Bool) (i : Nat) (hl1 : List Highlight) :
    (numberStep fty c prevHl prevSep i hl1).1 = hl1 ∨
    (numberStep fty c prevHl prevSep i hl1).1 = hl1.set i Highlight.Number := by
  unfold numberStep
  split_ifs <;> simp

theorem stringStep_fst (fty : FileType) (c prevChar quote : Char)
    (inString psep2 : Bool) (i : Nat) (hl2 : List Highlight) :
    (stringStep fty c prevChar quote inString psep2 i hl2).1 = hl2 ∨
    (stringStep fty c prevChar quote inString psep2 i hl2).1 =
      hl2.set i Highlight.String := by
  unfold stringStep
  split_ifs <;> simp

theorem keyword_func_inv {render : List Char} {khl : Highlight} {i : Nat}
    (hkhl : khl ≠ Highlight.Match) :
    ∀ (kws : List (List Char)) (hl : List Highlight),
      (∀ kw ∈ kws, kw ≠ ([] : List Char)) →
      NoMatchBelow hl i →
      ∀ {hlK : List Highlight} {iK : Nat},
        keyword_func render hl i khl kws = some (hlK, iK) →
        hlK.length = hl.length ∧ i < iK ∧ NoMatchBelow hlK iK := by
  intro kws
  induction kws with
  | nil => intro hl hne h hlK iK hkf; cases hkf
  | cons kw rest ih =>
    intro hl hne h hlK iK hkf
    have hkw : kw ≠ ([] : List Char) := hne kw (by simp)
    have hkwlen : 0 < kw.length := List.length_pos.2 hkw
    have hres : ∀ (hkf2 : some (setRange hl i (i + kw.length) khl, i + kw.length) =
        some (hlK, iK)), hlK.length = hl.length ∧ i < iK ∧ NoMatchBelow hlK iK := by
      intro hkf2
      have h2 := Option.some.inj hkf2
      have hh1 : hlK = setRange hl i (i + kw.length) khl := (Prod.ext_iff.1 h2).1.symm
      have hh2 : iK = i + kw.length := (Prod.ext_iff.1 h2).2.symm
      subst hh1
      subst hh2
      refine ⟨?_, by omega, ?_⟩
      · rw [setRange, setFrom_length]
      · rw [setRange]
        have := nmb_setFrom (m := (i + kw.length) - i) hkhl h
        have heq : i + ((i + kw.length) - i) = i + kw.length := by omega
        rw [heq] at this
        exact this
    unfold keyword_func at hkf
    dsimp only at hkf
    split at hkf
    · split at hkf
      · exact hres hkf
      · split at hkf
        · split at hkf
          · split at hkf
            · exact hres hkf
            · exact ih hl (fun kw2 hm => hne kw2 (by simp [hm])) h hkf
          · exact ih hl (fun kw2 hm => hne kw2 (by simp [hm])) h hkf
        · exact ih hl (fun kw2 hm => hne kw2 (by simp [hm])) h hkf
    · exact ih hl (fun kw2 hm => hne kw2 (by simp [hm])) h hkf

theorem setRange_length (l : List Highlight) (b e : Nat) (v : Highlight) :
    (setRange l b e v).length = l.length := by
  rw [setRange, setFrom_length]

theorem nmb_setRange {l : List Highlight} {i e : Nat} {v : Highlight}
    (hv : v ≠ Highlight.Match) (h : NoMatchBelow l i) :
    NoMatchBelow (setRange l i e v) e := by
  have h2 := nmb_setFrom (m := e - i) hv h
  rw [setRange]
  exact nmb_mono h2 (by omega)

theorem mlCloseStep_fst (fty : FileType) (render : List Char) (i : Nat)
    (inComment : Bool) (hl3 : List Highlight) :
    (mlCloseStep fty render i inComment hl3).1 = hl3 ∨
    (mlCloseStep fty render i inComment hl3).1 =
      hl3.set i Highlight.MultilineComment := by
  unfold mlCloseStep
  split
  · split
    · split <;> simp
    · simp
  · simp

theorem mlOpenCheck_pos {fty : FileType} {render : List Char} {i : Nat}
    {ic : Bool} {n : Nat} (h : mlOpenCheck fty render i ic = some n) : 0 < n := by
  cases fty
  unfold mlOpenCheck at h
  split at h
  · dsimp only [FileType.multiline_comment_start] at h
    split at h
    · cases h
      decide
    · cases h
  · cases h

theorem mlCloseStep_snd_pos {fty : FileType} {render : List Char} {i : Nat}
    {ic : Bool} {hl3 : List Highlight} {n : Nat}
    (h : (mlCloseStep fty render i ic hl3).2 = some n) : 0 < n := by
  cases fty
  unfold mlCloseStep at h
  split at h
  · dsimp only [FileType.multiline_comment_end] at h
    split at h
    · cases h
      decide
    · cases h
  · cases h

theorem keywordCheck_inv {fty : FileType} {render : List Char}
    {hl4 : List Highlight} {i : Nat} {psep3 ic : Bool} {hlType : HighlightType}
    {khl : Highlight} {kws : List (List Char)} {r : List Highlight × Nat}
    (hkhl : khl ≠ Highlight.Match) (hne : ∀ kw ∈ kws, kw ≠ ([] : List Char))
    (h4 : NoMatchBelow hl4 i)
    (h : keywordCheck fty render hl4 i psep3 ic hlType khl kws = some r) :
    r.1.length = hl4.length ∧ i < r.2 ∧ NoMatchBelow r.1 r.2 := by
  obtain ⟨r1, r2⟩ := r
  unfold keywordCheck at h
  split at h
  · exact keyword_func_inv hkhl kws hl4 hne h4 h
  · cases h

theorem keyword1_ne (fty : FileType) :
    ∀ kw ∈ fty.keyword1, kw ≠ ([] : List Char) := by
  cases fty
  decide

theorem keyword2_ne (fty : FileType) :
    ∀ kw ∈ fty.keyword2, kw ≠ ([] : List Char) := by
  cases fty
  decide

theorem hlStep_inv (ft : Option FileType) (render : List Char) (i : Nat)
    (hl : List Highlight) (prevHl : Highlight) (prevSep : Bool)
    (prevChar : Char) (inString inComment : Bool) (quote : Char) (c : Char)
    (hlen : hl.length = render.length)
    (h : NoMatchBelow hl i) :
    (∀ r, hlStep ft render i hl prevHl prevSep prevChar inString inComment quote c =
        HlStep.done r → r.1.length = render.length ∧ NoMatchAll r.1) ∧
    (∀ i' hl' a b d e f g,
      hlStep ft render i hl prevHl prevSep prevChar inString inComment quote c =
        HlStep.next i' hl' a b d e f g →
      hl'.length = render.length ∧ i < i' ∧ NoMatchBelow hl' i') := by
  have h1 : NoMatchBelow (hl.set i Highlight.Normal) (i + 1) :=
    nmb_set_extend (by decide) h
  have hlen1 : (hl.set i Highlight.Normal).length = render.length := by
    rw [List.length_set]; exact hlen
  cases ft with
  | none =>
    constructor
    · intro r hr
      unfold hlStep at hr
      exact HlStep.noConfusion hr
    · intro i' hl' a b d e f g hr
      unfold hlStep at hr
      cases hr
      exact ⟨hlen1, by omega, h1⟩
  | some fty =>
    have h2 : NoMatchBelow (numberStep fty c prevHl prevSep i
        (hl.set i Highlight.Normal)).1 (i + 1) ∧
        (numberStep fty c prevHl prevSep i (hl.set i Highlight.Normal)).1.length =
          render.length := by
      rcases numberStep_fst fty c prevHl prevSep i (hl.set i Highlight.Normal)
        with hn | hn <;> rw [hn]
      · exact ⟨h1, hlen1⟩
      · exact ⟨nmb_set_keep (by decide) h1, by rw [List.length_set]; exact hlen1⟩
    have h3 : NoMatchBelow (stringStep fty c prevChar quote inString
        (numberStep fty c prevHl prevSep i (hl.set i Highlight.Normal)).2 i
        (numberStep fty c prevHl prevSep i (hl.set i Highlight.Normal)).1).1 (i + 1) ∧
        (stringStep fty c prevChar quote inString
        (numberStep fty c prevHl prevSep i (hl.set i Highlight.Normal)).2 i
        (numberStep fty c prevHl prevSep i (hl.set i Highlight.Normal)).1).1.length =
          render.length := by
      rcases stringStep_fst fty c prevChar quote inString
        (numberStep fty c prevHl prevSep i (hl.set i Highlight.Normal)).2 i
        (numberStep fty c prevHl prevSep i (hl.set i Highlight.Normal)).1
        with hs | hs <;> rw [hs]
      · exact h2
      · exact ⟨nmb_set_keep (by decide) h2.1, by rw [List.length_set]; exact h2.2⟩
    set hl3 := (stringStep fty c prevChar quote inString
        (numberStep fty c prevHl prevSep i (hl.set i Highlight.Normal)).2 i
        (numberStep fty c prevHl prevSep i (hl.set i Highlight.Normal)).1).1 with hhl3
    have h4 : NoMatchBelow (mlCloseStep fty render i inComment hl3).1 (i + 1) ∧
        (mlCloseStep fty render i inComment hl3).1.length = render.length := by
      rcases mlCloseStep_fst fty render i inComment hl3 with hm | hm <;> rw [hm]
      · exact h3
      · exact ⟨nmb_set_keep (by decide) h3.1, by rw [List.length_set]; exact h3.2⟩
    constructor
    · intro r hr
      unfold hlStep at hr
      dsimp only at hr
      split at hr
      · cases hr
        constructor
        · rw [setRange_length]
          exact h3.2
        · apply nmb_all
          rw [setRange_length, h3.2]
          exact nmb_setRange (by decide) (nmb_mono h3.1 (by omega))
      · split at hr
        · exact HlStep.noConfusion hr
        · split at hr
          · exact HlStep.noConfusion hr
          · split at hr
            · exact HlStep.noConfusion hr
            · split at hr
              · exact HlStep.noConfusion hr
              · exact HlStep.noConfusion hr
    · intro i' hl' a b d e f g hr
      unfold hlStep at hr
      dsimp only at hr
      split at hr
      · exact HlStep.noConfusion hr
      · split at hr
        · rename_i n hml
          cases hr
          refine ⟨by rw [setRange_length]; exact h3.2, ?_, ?_⟩
          · have := mlOpenCheck_pos hml
            omega
          · exact nmb_setRange (by decide) (nmb_mono h3.1 (by omega))
        · split at hr
          · rename_i n hmc
            cases hr
            refine ⟨by rw [setRange_length]; exact h4.2, ?_, ?_⟩
            · have := mlCloseStep_snd_pos hmc
              omega
            · exact nmb_setRange (by decide) (nmb_mono h4.1 (by omega))
          · split at hr
            · rename_i r hkw
              have hinv := keywordCheck_inv (by decide) (keyword1_ne fty)
                (nmb_mono h4.1 (by omega)) hkw
              cases hr
              exact ⟨by rw [hinv.1]; exact h4.2, hinv.2.1, hinv.2.2⟩
            · split at hr
              · rename_i r hkw
                have hinv := keywordCheck_inv (by decide) (keyword2_ne fty)
                  (nmb_mono h4.1 (by omega)) hkw
                cases hr
                exact ⟨by rw [hinv.1]; exact h4.2, hinv.2.1, hinv.2.2⟩
              · cases hr
                exact ⟨h4.2, by omega, h4.1⟩

theorem resize_length (l : List Highlight) (n : Nat) (d : Highlight) :
    (resize l n d).length = n := by
  unfold resize
  split
  · rw [List.length_take]
    rename_i h
    exact Nat.min_eq_left h
  · rw [List.length_append, List.length_replicate]
    omega

theorem hlLoop_inv (ft : Option FileType) (render : List Char) :
    ∀ (fuel i : Nat) (hl : List Highlight) (prevHl : Highlight) (prevSep : Bool)
      (prevChar : Char) (inString inComment : Bool) (quote : Char),
      hl.length = render.length →
      render.length ≤ i + fuel →
      NoMatchBelow hl i →
      NoMatchAll (hlLoop ft render fuel i hl prevHl prevSep prevChar inString
        inComment quote).1 := by
  intro fuel
  induction fuel with
  | zero =>
    intro i hl prevHl prevSep prevChar inString inComment quote hlen hfuel h
    unfold hlLoop
    dsimp only
    apply nmb_all
    exact nmb_mono h (by omega)
  | succ fuel ih =>
    intro i hl prevHl prevSep prevChar inString inComment quote hlen hfuel h
    unfold hlLoop
    cases hg : render[i]? with
    | none =>
      have hge : render.length ≤ i := List.getElem?_eq_none_iff.1 hg
      dsimp only
      apply nmb_all
      exact nmb_mono h (by omega)
    | some c =>
      cases hstep : hlStep ft render i hl prevHl prevSep prevChar inString
          inComment quote c with
      | done r =>
        dsimp only
        rw [hstep]
        exact ((hlStep_inv ft render i hl prevHl prevSep prevChar inString
          inComment quote c hlen h).1 r hstep).2
      | next i' hl' a b d e f g =>
        dsimp only
        rw [hstep]
        obtain ⟨hlen', hlt, h'⟩ := (hlStep_inv ft render i hl prevHl prevSep
          prevChar inString inComment quote c hlen h).2 i' hl' a b d e f g hstep
        exact ih i' hl' a b d e f g hlen' (by omega) h'

/-- A full per-line recomputation never leaves a `Match` tag: every position
of the resulting highlight vector is written by the scan. -/
theorem clear_highlight_nm (el : EditorLine) (oc : Bool) :
    NoMatchAll ((EditorLine.clear_highlight el oc).1).highlight := by
  unfold EditorLine.clear_highlight
  dsimp only
  apply hlLoop_inv
  · split
    · rw [resize_length]
    · rename_i hne2
      exact (not_ne_iff.1 hne2).symm
  · omega
  · intro k hh hk
    exact absurd hk (by omega)

theorem processLines_length (ls : List EditorLine) (oc : Bool) :
    (processLines ls oc).length = ls.length := by
  induction ls generalizing oc with
  | nil => rfl
  | cons l ls ih =>
    unfold processLines
    rw [List.length_cons, List.length_cons, ih]

theorem processLines_mem {ls : List EditorLine} {oc : Bool} {el : EditorLine}
    (h : el ∈ processLines ls oc) :
    ∃ l0 oc0, el = (EditorLine.clear_highlight l0 oc0).1 := by
  induction ls generalizing oc with
  | nil => cases h
  | cons l ls ih =>
    unfold processLines at h
    rcases List.mem_cons.1 h with h1 | h2
    · exact ⟨l, oc, h1⟩
    · exact ih h2

/-- Claim C4 (counterexample): on the two-line buffer `a` / `b` where line 1
carries a `Match` override, the fixed point is reached already at line 0
(its recomputed outbound `open_comment` equals the stored value), yet
`EditorBuffer::clear_highlight(0)` recomputes line 1 as well and its
highlight changes from `[Match]` to `[Normal]` — the loop has no fixed-point
stop and overrides beyond the fixed point do not survive. -/
theorem C4_counterexample :
    (EditorLine.clear_highlight lineC4 false).2 = lineC4.open_comment ∧
    bufC4.lines.map EditorLine.highlight = [[Highlight.Normal], [Highlight.Match]] ∧
    (EditorBuffer.clear_highlight bufC4 0).map
      (fun b => b.lines.map EditorLine.highlight) =
      some [[Highlight.Normal], [Highlight.Normal]] := by decide

/-- Claim C4 (amended): `EditorBuffer::clear_highlight(i)` recomputes every
line from `i` to the end of the buffer, threading each line's outbound
`open_comment` into the next, with no fixed-point stop: lines before `i`
keep their highlight vectors unchanged, and every line from `i` on ends up
with a freshly computed base classification in which no `Match` override
survives. -/
theorem C4_clear_highlight_frame (buf buf' : EditorBuffer) (cy : Nat)
    (h : EditorBuffer.clear_highlight buf cy = some buf') :
    (∀ j, j < cy → buf'.lines[j]? = buf.lines[j]?) ∧
    (∀ j el, cy ≤ j → buf'.lines[j]? = some el →
      ∀ hh ∈ el.highlight, hh ≠ Highlight.Match) := by
  unfold EditorBuffer.clear_highlight at h
  dsimp only at h
  split at h
  · cases h
  · rename_i oc hoc
    have hb : buf' = { buf with
        lines := buf.lines.take cy ++ processLines (buf.lines.drop cy) oc } :=
      (Option.some.inj h).symm
    subst hb
    constructor
    · intro j hj
      dsimp only
      rw [List.getElem?_append, List.getElem?_take]
      by_cases hjl : j < buf.lines.length
      · rw [if_pos (by rw [List.length_take]; exact Nat.lt_min.2 ⟨hj, hjl⟩),
          if_pos hj]
      · have hmin := Nat.min_le_right cy buf.lines.length
        rw [if_neg (by rw [List.length_take]; omega)]
        have hplen : (processLines (buf.lines.drop cy) oc).length =
            buf.lines.length - cy := by
          rw [processLines_length, List.length_drop]
        have hmin2 := Nat.min_le_left cy buf.lines.length
        rw [List.getElem?_eq_none_iff.2 (by rw [hplen, List.length_take]; omega),
          List.getElem?_eq_none_iff.2 (by omega)]
    · intro j el hj hel
      dsimp only at hel
      have hal : (buf.lines.take cy).length ≤ j := by
        rw [List.length_take]
        exact le_trans (Nat.min_le_left _ _) hj
      rw [List.getElem?_append_right hal] at hel
      have hmem : el ∈ processLines (buf.lines.drop cy) oc :=
        List.mem_iff_getElem?.2 ⟨_, hel⟩
      obtain ⟨l0, oc0, rfl⟩ := processLines_mem hmem
      intro hh hmm
      obtain ⟨k, hk⟩ := List.mem_iff_getElem?.1 hmm
      exact clear_highlight_nm l0 oc0 k hh hk

theorem C4_clear_highlight_frame_witness :
    (EditorBuffer.clear_highlight bufC4 0 =
      some (mkPlainBuffer [[('a')], [('b')]])) ∧
    Highlight.Normal ≠ Highlight.Match :=
  ⟨by decide,
    (C4_clear_highlight_frame bufC4 (mkPlainBuffer [[('a')], [('b')]]) 0
      (by decide)).2 1 (EditorLine.new [('b')] none) (by omega) (by decide)
      Highlight.Normal (by decide)⟩

/-! ### Embedding sanity checks mirroring the repository's own unit tests -/

/-- The `test_convert_render` cases from buffer.rs. -/
theorem convert_render_unit_tests :
    convert_render (("hoge").toList) = ("hoge").toList ∧
    convert_render (("\t").toList) = ("        ").toList ∧
    convert_render (("1\t").toList) = ("1       ").toList ∧
    convert_render (("1234567\t").toList) = ("1234567 ").toList ∧
    convert_render (("12345678\t").toList) = ("12345678        ").toList := by
  decide

/-- The `test_cx_to_rx` case from buffer.rs. -/
theorem cx_to_rx_unit_test :
    EditorBuffer.cx_to_rx (mkPlainBuffer [("123\t456").toList]) 4 0 = 8 := by
  decide

/-- The three-line multiline-comment carry example: `/* a`, `b`, `*/ c`. -/
theorem multiline_carry_example :
    (EditorBuffer.clear_highlight
      { lines := [EditorLine.new (("/* a").toList) (some FileType.C),
                  EditorLine.new (("b").toList) (some FileType.C),
                  EditorLine.new (("*/ c").toList) (some FileType.C)],
        filepath := none, dirty := false, file_type := some FileType.C } 0).map
      (fun b => (b.lines.map EditorLine.open_comment,
                 b.lines.map EditorLine.highlight)) =
      some ([true, true, false],
        [[Highlight.MultilineComment, Highlight.MultilineComment,
          Highlight.MultilineComment, Highlight.MultilineComment],
         [Highlight.MultilineComment],
         [Highlight.MultilineComment, Highlight.MultilineComment,
          Highlight.Normal, Highlight.Normal]]) := by decide
